import Mathlib

/-!
Verification development for a multi-board heads-up poker bot
(`week-2-bot/precompute_strat/player.py`).

The Python source is shallowly embedded: cards are rank/suit characters,
Python `int` arithmetic is `Int`, Python `float` arithmetic is modelled by `ℚ`,
the pseudo-random draws of `random.random()` are universally quantified `ℚ`
parameters (at most one draw is consumed per board, so each board receives its
own parameter), and the iteration order of Python `dict`/`set` objects inside
`allocate_cards` is modelled by explicit reordering parameters `σ` constrained
to be permutations.
-/

namespace Poker

/-- A playing card, as in the engine's two-character string format `"Kd"`:
`rank` is the first character (`'2'`-`'9'`, `'T'`, `'J'`, `'Q'`, `'K'`, `'A'`)
and `suit` the second (`'d'`, `'h'`, `'s'`, `'c'`). -/
structure Card where
  rank : Char
  suit : Char
deriving DecidableEq

/-- Embeds `Player.rank_to_numeric`: a digit character maps to its value,
`'T'`-`'K'` to 10-13, and any other character (the ace) to 14. -/
def rank_to_numeric (rank : Char) : Nat :=
  if rank.isDigit then rank.toNat - '0'.toNat
  else if rank = 'T' then 10
  else if rank = 'J' then 11
  else if rank = 'Q' then 12
  else if rank = 'K' then 13
  else 14

/-- The thirteen rank characters that actually occur on cards. -/
def validRank (c : Char) : Prop :=
  c ∈ ['2', '3', '4', '5', '6', '7', '8', '9', 'T', 'J', 'Q', 'K', 'A']

instance : DecidablePred validRank := fun c => by unfold validRank; infer_instance

/-- Embeds `Player.sort_cards_by_rank`: Python's stable `sorted(..., reverse=True,
key=rank)` is a stable descending sort, realised here by insertion sort with the
relation `rank b ≤ rank a` (which places a card before any later card of equal
rank, exactly as the stable Python sort does). -/
def sort_cards_by_rank (cards : List Card) : List Card :=
  List.insertionSort (fun a b => rank_to_numeric b.rank ≤ rank_to_numeric a.rank) cards

/-- Embeds `Player.hole_list_to_key`. The source indexes `hole[0]` and `hole[1]`;
real holes always have two cards, so the `getD` default is never consulted. -/
def hole_list_to_key (hole : List Card) : String :=
  let card_1 := hole.getD 0 ⟨'2', 'd'⟩
  let card_2 := hole.getD 1 ⟨'2', 'd'⟩
  let numeric_1 := rank_to_numeric card_1.rank
  let numeric_2 := rank_to_numeric card_2.rank
  let suited := card_1.suit = card_2.suit
  let suit_string : Char := if suited then 's' else 'o'
  if numeric_2 ≤ numeric_1 then String.mk [card_1.rank, card_2.rank, suit_string]
  else String.mk [card_2.rank, card_1.rank, suit_string]

/-! ### Card allocation (`Player.allocate_cards`)

The Python function iterates over a rank `dict`, a remaining-cards `set`, and a
suit `dict`.  Every such iteration order is modelled by a reordering function
`σ : List Card → List Card` that the theorems constrain to permute its input;
instantiating every `σ` with `id` recovers one concrete run. -/

/-- Key-insertion step for the first-appearance ordering of a Python dict's keys. -/
def insertKey (seen : List Char) (k : Char) : List Char :=
  if seen.contains k then seen else seen ++ [k]

/-- First-appearance order of the keys produced while scanning `cards`
(the iteration order of a Python dict built by the grouping loops). -/
def keyOrder (key : Card → Char) (cards : List Card) : List Char :=
  cards.foldl (fun seen c => insertKey seen (key c)) []

/-- The groups of a Python `dict` grouping `cards` by `key`, in first-appearance
key order; each group lists its cards in scan order. -/
def groupsBy (key : Card → Char) (cards : List Card) : List (List Card) :=
  (keyOrder key cards).map (fun k => cards.filter (fun c => key c == k))

/-- Cards a rank group contributes to the `pairs` list (`allocate_cards` lines
124-136): a lone card contributes none, a group of 2 or 4 contributes all its
cards, and any other group (the `else` branch, hit by 3-card groups) contributes its
first two cards. -/
def pairContrib : List Card → List Card
  | [_] => []
  | [a, b] => [a, b]
  | [a, b, c, d] => [a, b, c, d]
  | a :: b :: _ :: _ => [a, b]
  | [] => []

/-- Cards a rank group contributes to the `singles` list. -/
def singleContrib : List Card → List Card
  | [c] => [c]
  | [_, _] => []
  | [_, _, _, _] => []
  | _ :: _ :: c :: _ => [c]
  | [] => []

/-- The `pairs` list of `allocate_cards`: concatenated contributions of the rank
groups in dict order. -/
def pairsOf (cards : List Card) : List Card :=
  ((groupsBy (fun c => c.rank) cards).map pairContrib).flatten

/-- The `singles` list of `allocate_cards` (computed by the source, never used). -/
def singlesOf (cards : List Card) : List Card :=
  ((groupsBy (fun c => c.rank) cards).map singleContrib).flatten

/-- Consecutive disjoint pairs of a list: `pairs[2*i], pairs[2*i+1]` for
`i < len(pairs) // 2`, as the pair-, and fallback-pass loops form them. -/
def chunk2 {α : Type} : List α → List (α × α)
  | a :: b :: rest => (a, b) :: chunk2 rest
  | _ => []

/-- The working state of `allocate_cards`: the holes committed so far, the
`allocated_cards` set (as a list queried only for membership) and the
`cards_remaining` set (as a duplicate-free list). -/
structure AllocState where
  holes : List (List Card)
  alloc : List Card
  rem : List Card
deriving DecidableEq

/-- Set difference `cards_remaining - allocated_cards` on the list model. -/
def listDiff (l alloc : List Card) : List Card :=
  l.filter (fun c => !(alloc.contains c))

/-- Pair threshold `_MIN_PAIR_VALUE` of `allocate_cards`. -/
def MIN_PAIR_VALUE : Nat := 5

/-- Pass 1 of `allocate_cards` (lines 108-152): group by rank, form candidate
pairs, commit those whose rank is at least `_MIN_PAIR_VALUE`, and subtract the
committed cards from the remaining set.  `σ₀` is the iteration-order parameter
for the rank grouping. -/
def pairPass (σ₀ : List Card → List Card) (my_cards : List Card) : AllocState :=
  let pairs := pairsOf (σ₀ my_cards)
  let committed := (chunk2 pairs).filter
    (fun p => decide (MIN_PAIR_VALUE ≤ rank_to_numeric p.1.rank))
  let holes := committed.map (fun p => [p.1, p.2])
  { holes := holes, alloc := holes.flatten, rem := listDiff my_cards holes.flatten }

/-- The adjacent-card scan of the connector pass (lines 156-165): walk the
rank-sorted remaining cards, and commit any adjacent pair at rank distance at
most 1 whose two cards are both still unallocated. -/
def connectorLoop (alloc : List Card) (holes : List (List Card)) :
    List Card → List (List Card) × List Card
  | c1 :: c2 :: rest =>
      if ((rank_to_numeric c1.rank : Int) - rank_to_numeric c2.rank ≤ 1)
          ∧ c1 ∉ alloc ∧ c2 ∉ alloc then
        connectorLoop (alloc ++ [c1, c2]) (holes ++ [[c1, c2]]) (c2 :: rest)
      else
        connectorLoop alloc holes (c2 :: rest)
  | _ => (holes, alloc)

/-- Pass 2 of `allocate_cards` (lines 154-167): sort the remaining cards by rank
descending (`σ₁` orders the set before the stable sort) and run the adjacent
scan, then subtract the newly allocated cards. -/
def connectorPass (σ₁ : List Card → List Card) (s : AllocState) : AllocState :=
  let sorted_remaining := sort_cards_by_rank (σ₁ s.rem)
  let r := connectorLoop s.alloc s.holes sorted_remaining
  { holes := r.1, alloc := r.2, rem := listDiff s.rem r.2 }

/-- Holes a suit group contributes in the flush pass (lines 180-196): one hole
from the first two cards of a 2- or 3-card group, two holes from a 4-card
group, nothing otherwise. -/
def flushContrib : List Card → List (List Card)
  | [a, b] => [[a, b]]
  | [a, b, _] => [[a, b]]
  | [a, b, c, d] => [[a, b], [c, d]]
  | _ => []

/-- Pass 3 of `allocate_cards` (lines 169-198): group the remaining cards by
suit (`σ₂` is the set/dict iteration order) and commit the flush-draw holes. -/
def flushPass (σ₂ : List Card → List Card) (s : AllocState) : AllocState :=
  let groups := groupsBy (fun c => c.suit) (σ₂ s.rem)
  let newHoles := (groups.map flushContrib).flatten
  { holes := s.holes ++ newHoles,
    alloc := s.alloc ++ newHoles.flatten,
    rem := listDiff s.rem (s.alloc ++ newHoles.flatten) }

/-- Pass 4 of `allocate_cards` (lines 199-206): pair the leftover cards in the
order encountered (`σ₃` is the `list(cards_remaining)` set-iteration order). -/
def fallbackPass (σ₃ : List Card → List Card) (s : AllocState) : AllocState :=
  let extra_cards := σ₃ s.rem
  let newHoles := (chunk2 extra_cards).map (fun p => [p.1, p.2])
  { holes := s.holes ++ newHoles,
    alloc := s.alloc ++ newHoles.flatten,
    rem := listDiff s.rem (s.alloc ++ newHoles.flatten) }

/-- The four passes of `allocate_cards` in order. -/
def allocPasses (σ₀ σ₁ σ₂ σ₃ : List Card → List Card) (my_cards : List Card) :
    AllocState :=
  fallbackPass σ₃ (flushPass σ₂ (connectorPass σ₁ (pairPass σ₀ my_cards)))

/-- Embeds `Player.allocate_cards` including its two final assertions
(`len(holes_allocated) == 3` and `len(cards_remaining) == 0`): `none` models an
assertion failure. -/
def allocate_cards (σ₀ σ₁ σ₂ σ₃ : List Card → List Card) (my_cards : List Card) :
    Option (List (List Card)) :=
  let s := allocPasses σ₀ σ₁ σ₂ σ₃ my_cards
  if s.holes.length = 3 ∧ s.rem = [] then some s.holes else none

/-- Scenario A of the spec: `[2♦, 2♣, 9♠, 9♥, K♦, A♠]`. -/
def scenarioA : List Card :=
  [⟨'2', 'd'⟩, ⟨'2', 'c'⟩, ⟨'9', 's'⟩, ⟨'9', 'h'⟩, ⟨'K', 'd'⟩, ⟨'A', 's'⟩]

/-! ### Player state and hole assignment -/

/-- NUM_BOARDS of the engine skeleton. -/
def NUM_BOARDS : Nat := 3

/-- An entry of a per-board `self.opponent_moves[i]` list: the source appends
the class object `RaiseAction` when the opponent has bet, and `None` otherwise
(lines 343-347). -/
inductive OppMove where
  | raiseA
  | noneA
deriving DecidableEq

/-- The mutable attributes of `Player` touched by the round-level methods:
`board_allocations`, `hole_strengths`, `opponent_moves` (set in `__init__`)
and `last_seen_street` (written only by `handle_round_over`). -/
structure PlayerState where
  board_allocations : List (List Card)
  hole_strengths : List ℚ
  opponent_moves : List (List OppMove)
  last_seen_street : Int
deriving DecidableEq

/-- Builds `holes_and_strengths` (lines 222-227): look up each hole's strength
in the `starting_strengths` table; a missing key is a `KeyError`, modelled by
`none`. -/
def buildHS (tbl : String → Option ℚ) : List (List Card) → Option (List (List Card × ℚ))
  | [] => some []
  | h :: rest =>
      match tbl (hole_list_to_key h), buildHS tbl rest with
      | some s, some acc => some ((h, s) :: acc)
      | _, _ => none

/-- The first randomized swap of `assign_holes` (lines 231-234): exchange the
entries at positions 2 and 1.  The input always has three entries; shorter
lists (unreachable here, an `IndexError` in Python) are returned unchanged. -/
def swapTop {α : Type} : List α → List α
  | a :: b :: c :: rest => a :: c :: b :: rest
  | l => l

/-- The second randomized swap of `assign_holes` (lines 236-239): exchange the
entries at positions 1 and 0. -/
def swapBottom {α : Type} : List α → List α
  | a :: b :: rest => b :: a :: rest
  | l => l

/-- Embeds `Player.assign_holes`.  `r1`, `r2` are the two `random.random()`
draws; Python's stable ascending `sorted(key=strength)` is insertion sort on
the strength component.  The method writes `board_allocations[i]` and
`hole_strengths[i]` for `i < NUM_BOARDS`. -/
def assign_holes (st : PlayerState) (tbl : String → Option ℚ)
    (hole_cards : List (List Card)) (r1 r2 : ℚ) : Option PlayerState :=
  match buildHS tbl hole_cards with
  | none => none
  | some hs0 =>
      let hs1 := List.insertionSort (fun a b : List Card × ℚ => a.2 ≤ b.2) hs0
      let hs2 := if r1 < 1/10 then swapTop hs1 else hs1
      let hs3 := if r2 < 1/10 then swapBottom hs2 else hs2
      some { st with
        board_allocations := (List.range NUM_BOARDS).map (fun i => (hs3.getD i ([], 0)).1),
        hole_strengths := (List.range NUM_BOARDS).map (fun i => (hs3.getD i ([], 0)).2) }

/-- Embeds the state reset of `Player.handle_round_over` (lines 291-293): the
method re-initialises `board_allocations`, `hole_strengths` and
`last_seen_street`, and touches nothing else (in particular it never resets
`opponent_moves`). -/
def handle_round_over (st : PlayerState) : PlayerState :=
  { st with
    board_allocations := [[], [], []],
    hole_strengths := [0, 0, 0],
    last_seen_street := 0 }

/-! ### The action engine (`Player.get_actions`) -/

/-- The kinds of engine actions that can occur in a board's legal-action set. -/
inductive ActKind where
  | assignK
  | foldK
  | callK
  | checkK
  | raiseK
deriving DecidableEq

/-- An action emitted for one board. -/
inductive Action where
  | assign (cards : List Card)
  | fold
  | call
  | check
  | raiseTo (amt : Int)
deriving DecidableEq

/-- The per-board slice of the engine-supplied `round_state` that `get_actions`
reads: the legal-action set, whether the board is a `TerminalState`, both pips,
the pre-street pot (`board_states[i].pot`) and the raise bounds
(`board_states[i].raise_bounds(...)`). -/
structure BoardInput where
  legal : List ActKind
  isTerminal : Bool
  myPip : Int
  oppPip : Int
  pot : Int
  minRaise : Int
  maxRaise : Int
deriving DecidableEq

/-- Python truncating conversion `int(x)` on the exact rational model of the
float `x` (truncation toward zero). -/
def truncQ (q : ℚ) : Int :=
  if 0 ≤ q then ⌊q⌋ else -⌊-q⌋

/-- The clamped raise target of `get_actions` (lines 349-355): the candidate
`int(my_pips + cont + f*(pot_total + cont))`, with `f = 0.25` pre-flop
(`street < 3`) and `f = 0.85` post-flop, clamped into `[min_raise, max_raise]`. -/
def raiseAmountOf (street : Int) (b : BoardInput) : Int :=
  let cont := b.oppPip - b.myPip
  let pot_total := b.myPip + b.oppPip + b.pot
  let raw :=
    if street < 3 then
      truncQ ((b.myPip : ℚ) + (cont : ℚ) + 1/4 * ((pot_total : ℚ) + (cont : ℚ)))
    else
      truncQ ((b.myPip : ℚ) + (cont : ℚ) + 17/20 * ((pot_total : ℚ) + (cont : ℚ)))
  min b.maxRaise (max b.minRaise raw)

/-- The preferred commit action of `get_actions` (lines 359-373): raise if legal
and affordable against `my_stack - net_cost`, else call if legal and
affordable, else check if legal, else fold at zero cost. -/
def commitChoice (legal : List ActKind) (raiseAmt raiseCost cont stack net : Int) :
    Action × Int :=
  if legal.contains .raiseK ∧ raiseCost ≤ stack - net then (.raiseTo raiseAmt, raiseCost)
  else if legal.contains .callK ∧ cont ≤ stack - net then (.call, cont)
  else if legal.contains .checkK then (.check, 0)
  else (.fold, 0)

/-- The same fallback chain, written from the spec's description of the
"preferred commit action" (spec section 4.4 and error condition (3)), for
comparison against the source-derived `commitChoice`. -/
def specPreferredCommit (legal : List ActKind) (target costOfRaise cont stack budgetUsed : Int) :
    Action × Int :=
  let canRaise := legal.contains ActKind.raiseK ∧ costOfRaise ≤ stack - budgetUsed
  let canCall := legal.contains ActKind.callK ∧ cont ≤ stack - budgetUsed
  let canCheck := legal.contains ActKind.checkK
  if canRaise then (Action.raiseTo target, costOfRaise)
  else if canCall then (Action.call, cont)
  else if canCheck then (Action.check, 0)
  else (Action.fold, 0)

/-- Python equality `x == RaiseAction` where `x` is one element of the OUTER
`self.opponent_moves` list, i.e. a per-board list object: a list never equals
the class object `RaiseAction`, so the test is always false. -/
def pyListEqRaiseActionClass (_l : List OppMove) : Bool := false

/-- Embeds `self.opponent_moves.count(RaiseAction)` (line 379): the count, over
the outer list of three per-board lists, of elements equal to the class
`RaiseAction`. -/
def outerRaiseCount (moves : List (List OppMove)) : Nat :=
  (moves.filter pyListEqRaiseActionClass).length

/-- The intimidation adjustment of `get_actions` (lines 376-385), applied to the
local `strength` when `board_cont_cost > 0`: subtract 0.1 (clamped at 0) when
`self.opponent_moves.count(RaiseAction) >= 2`, then subtract 0.15 (clamped at
0) when `board_cont_cost > 5`. -/
def adjustStrength (moves : List (List OppMove)) (cont : Int) (strength : ℚ) : ℚ :=
  let s1 := if 2 ≤ outerRaiseCount moves then max 0 (strength - 1/10) else strength
  if 5 < cont then max 0 (s1 - 3/20) else s1

/-- The per-board raise count the source's own comment (and the spec) intend:
occurrences of `RaiseAction` inside the board's own move list. -/
def boardRaiseCount (moves : List (List OppMove)) (i : Nat) : Nat :=
  (moves.getD i []).count OppMove.raiseA

/-- Python `self.opponent_moves[i].append(m)`: append to the `i`-th per-board
list, leaving the others unchanged. -/
def appendAt (moves : List (List OppMove)) (i : Nat) (m : OppMove) :
    List (List OppMove) :=
  moves.set i ((moves.getD i []) ++ [m])

/-- The opponent-move recording of `get_actions` (lines 343-347). -/
def recordMove (st : PlayerState) (i : Nat) (m : OppMove) : PlayerState :=
  { st with opponent_moves := appendAt st.opponent_moves i m }

/-- One iteration of the board loop of `get_actions` (lines 328-417) for board
`i`: consumes the running `net` cost, the board's slice of the round state and
this board's random draw, and returns the emitted action, the updated
`net_cost` and the updated player state. -/
def boardStep (st : PlayerState) (street myStack net : Int) (i : Nat)
    (b : BoardInput) (rnd : ℚ) : Action × Int × PlayerState :=
  if b.legal.contains .assignK then
    (.assign (st.board_allocations.getD i []), net, st)
  else if b.isTerminal then
    (.check, net, st)
  else
    let board_cont_cost := b.oppPip - b.myPip
    let pot_total := b.myPip + b.oppPip + b.pot
    let strength := st.hole_strengths.getD i 0
    let st' := recordMove st i (if 0 < board_cont_cost then .raiseA else .noneA)
    let raise_ammount := raiseAmountOf street b
    let raise_cost := raise_ammount - b.myPip
    let cc := commitChoice b.legal raise_ammount raise_cost board_cont_cost myStack net
    if 0 < board_cont_cost then
      let strength := adjustStrength st'.opponent_moves board_cont_cost strength
      let pot_odds : ℚ := (board_cont_cost : ℚ) / ((pot_total : ℚ) + (board_cont_cost : ℚ))
      if pot_odds ≤ strength then
        if 1/2 < strength ∧ rnd < strength then (cc.1, net + cc.2, st')
        else if board_cont_cost ≤ myStack - net then (.call, net + board_cont_cost, st')
        else (.fold, net, st')
      else (.fold, net, st')
    else
      if rnd < strength then (cc.1, net + cc.2, st')
      else (.check, net, st')

/-- Embeds `Player.get_actions`: the three boards are processed in order with
`net_cost` starting at 0 and threaded through, and the player state threaded
likewise.  `r0`, `r1`, `r2` are the boards' random draws. -/
def get_actions (st : PlayerState) (street myStack : Int)
    (b0 b1 b2 : BoardInput) (r0 r1 r2 : ℚ) : List Action × Int × PlayerState :=
  let s0 := boardStep st street myStack 0 0 b0 r0
  let s1 := boardStep s0.2.2 street myStack s0.2.1 1 b1 r1
  let s2 := boardStep s1.2.2 street myStack s1.2.1 2 b2 r2
  ([s0.1, s1.1, s2.1], s2.2.1, s2.2.2)

/-- The induction invariant tying an `allocate_cards` working state to the
input cards: committed holes are two-card lists over pairwise distinct cards
drawn from the input, the `allocated_cards` set has exactly the committed
cards as members, and the remaining set is the input minus the allocated set. -/
def AllocInv (cards : List Card) (s : AllocState) : Prop :=
  (∀ h ∈ s.holes, ∃ a b, h = [a, b]) ∧
  s.holes.flatten.Nodup ∧
  (∀ c, c ∈ s.alloc ↔ c ∈ s.holes.flatten) ∧
  s.rem = listDiff cards s.alloc ∧
  (∀ c ∈ s.holes.flatten, c ∈ cards)

/-! ## Theorems -/

theorem rank_to_numeric_inj (c d : Char) (hc : validRank c) (hd : validRank d)
    (h : rank_to_numeric c = rank_to_numeric d) : c = d := by
  unfold validRank at hc hd
  fin_cases hc <;> fin_cases hd <;> revert h <;> decide

theorem hole_key_swap (c1 c2 : Card) (h1 : validRank c1.rank) (h2 : validRank c2.rank) :
    hole_list_to_key [c2, c1] = hole_list_to_key [c1, c2] := by
  unfold hole_list_to_key
  simp only [List.getD_cons_zero, List.getD_cons_succ]
  have hsuit : ∀ x y : Char, (if x = y then 's' else 'o') = (if y = x then 's' else 'o') := by
    intro x y
    by_cases hs : x = y
    · rw [if_pos hs, if_pos hs.symm]
    · rw [if_neg hs, if_neg (fun h => hs h.symm)]
  rcases lt_trichotomy (rank_to_numeric c1.rank) (rank_to_numeric c2.rank) with hlt | heq | hgt
  · rw [if_pos hlt.le, if_neg (not_le.mpr hlt), hsuit]
  · have hrk := rank_to_numeric_inj c1.rank c2.rank h1 h2 heq
    rw [if_pos heq.le, if_pos heq.ge, hsuit, hrk]
  · rw [if_neg (not_le.mpr hgt), if_pos hgt.le, hsuit]

theorem hole_key_relabel (c1 c2 d1 d2 : Card)
    (hr1 : d1.rank = c1.rank) (hr2 : d2.rank = c2.rank)
    (hsuit : (d1.suit = d2.suit) ↔ (c1.suit = c2.suit)) :
    hole_list_to_key [d1, d2] = hole_list_to_key [c1, c2] := by
  unfold hole_list_to_key
  simp only [List.getD_cons_zero, List.getD_cons_succ, hr1, hr2]
  by_cases hs : c1.suit = c2.suit
  · rw [if_pos hs, if_pos (hsuit.mpr hs)]
  · rw [if_neg hs, if_neg (fun h => hs (hsuit.mp h))]

/-- C8: `hole_list_to_key` returns the same key when the two cards of a hole
are given in either order (valid rank characters), and the same key for any two
holes with the same rank pair and the same suited/offsuit status regardless of
the actual suits. -/
theorem hole_list_to_key_canonical (c1 c2 d1 d2 : Card)
    (h1 : validRank c1.rank) (h2 : validRank c2.rank)
    (hr1 : d1.rank = c1.rank) (hr2 : d2.rank = c2.rank)
    (hsuit : (d1.suit = d2.suit) ↔ (c1.suit = c2.suit)) :
    hole_list_to_key [c2, c1] = hole_list_to_key [c1, c2] ∧
    hole_list_to_key [d1, d2] = hole_list_to_key [c1, c2] :=
  ⟨hole_key_swap c1 c2 h1 h2, hole_key_relabel c1 c2 d1 d2 hr1 hr2 hsuit⟩

theorem hole_list_to_key_canonical_witness :
    hole_list_to_key [⟨'Q', 'h'⟩, ⟨'K', 'd'⟩] = hole_list_to_key [⟨'K', 'd'⟩, ⟨'Q', 'h'⟩] ∧
    hole_list_to_key [⟨'K', 's'⟩, ⟨'Q', 'c'⟩] = hole_list_to_key [⟨'K', 'd'⟩, ⟨'Q', 'h'⟩] :=
  hole_list_to_key_canonical ⟨'K', 'd'⟩ ⟨'Q', 'h'⟩ ⟨'K', 's'⟩ ⟨'Q', 'c'⟩
    (by decide) (by decide) rfl rfl (by decide)

/-- C9: the preferred commit action of `get_actions` is chosen by the strict
fallback chain: raise to the clamped target if `RaiseAction` is legal and its
incremental cost is at most `my_stack - net_cost`; else call if `CallAction` is
legal and `continue_cost` is affordable; else check if `CheckAction` is legal;
else fold at zero cost.  The chain is a total function (affordability
exhaustion selects the next cheaper action, it never raises an error), and it
coincides with `specPreferredCommit`, the chain as the spec words it.
`boardStep` invokes `commitChoice` for every non-terminal board. -/
theorem commit_fallback_chain (legal : List ActKind) (target rc cc stack net : Int) :
    ((legal.contains ActKind.raiseK = true ∧ rc ≤ stack - net) →
        commitChoice legal target rc cc stack net = (Action.raiseTo target, rc)) ∧
    (¬(legal.contains ActKind.raiseK = true ∧ rc ≤ stack - net) →
        (legal.contains ActKind.callK = true ∧ cc ≤ stack - net) →
        commitChoice legal target rc cc stack net = (Action.call, cc)) ∧
    (¬(legal.contains ActKind.raiseK = true ∧ rc ≤ stack - net) →
        ¬(legal.contains ActKind.callK = true ∧ cc ≤ stack - net) →
        legal.contains ActKind.checkK = true →
        commitChoice legal target rc cc stack net = (Action.check, 0)) ∧
    (¬(legal.contains ActKind.raiseK = true ∧ rc ≤ stack - net) →
        ¬(legal.contains ActKind.callK = true ∧ cc ≤ stack - net) →
        legal.contains ActKind.checkK = false →
        commitChoice legal target rc cc stack net = (Action.fold, 0)) ∧
    commitChoice legal target rc cc stack net = specPreferredCommit legal target rc cc stack net := by
  refine ⟨?_, ?_, ?_, ?_, rfl⟩
  · intro h
    unfold commitChoice
    rw [if_pos h]
  · intro h1 h2
    unfold commitChoice
    rw [if_neg h1, if_pos h2]
  · intro h1 h2 h3
    unfold commitChoice
    rw [if_neg h1, if_neg h2, if_pos h3]
  · intro h1 h2 h3
    unfold commitChoice
    rw [if_neg h1, if_neg h2, if_neg (fun hc => by rw [h3] at hc; exact Bool.false_ne_true hc)]

theorem commit_fallback_chain_witness :
    commitChoice [ActKind.callK, ActKind.checkK] 50 45 5 40 0 = (Action.call, 5) :=
  (commit_fallback_chain [ActKind.callK, ActKind.checkK] 50 45 5 40 0).2.1
    (by decide) (by decide)

/-- C3 (code-bug evidence): the source tests
`self.opponent_moves.count(RaiseAction) >= 2` on the OUTER list of per-board
lists, so the count is 0 even when the opponent has raised twice on the board
(`boardRaiseCount ... = 2`), and the 0.1 intimidation reduction never applies:
on a board with two recorded raises and `continue_cost = 1`, a strength of 1/2
is left at 1/2 instead of the claimed 1/2 - 1/10. -/
theorem intimidation_raise_count_broken :
    boardRaiseCount [[OppMove.raiseA, OppMove.raiseA], [], []] 0 = 2 ∧
    outerRaiseCount [[OppMove.raiseA, OppMove.raiseA], [], []] = 0 ∧
    adjustStrength [[OppMove.raiseA, OppMove.raiseA], [], []] 1 (1/2) = 1/2 ∧
    adjustStrength [[OppMove.raiseA, OppMove.raiseA], [], []] 1 (1/2) ≠ 1/2 - 1/10 := by
  refine ⟨rfl, rfl, rfl, ?_⟩
  have h : adjustStrength [[OppMove.raiseA, OppMove.raiseA], [], []] 1 (1/2) = 1/2 := rfl
  rw [h]
  norm_num

/-- C4 (code-bug evidence): `handle_round_over` resets `board_allocations` and
`hole_strengths` but leaves the opponent-move history untouched: a non-empty
`opponent_moves` recorded during the round survives the round-end reset, so the
next round's betting starts with entries from earlier rounds, contrary to the
claimed full clear. -/
theorem round_over_keeps_opponent_moves :
    (handle_round_over ⟨[[⟨'A', 's'⟩, ⟨'K', 'd'⟩]], [9/10], [[OppMove.raiseA], [], []], 3⟩).opponent_moves
        = [[OppMove.raiseA], [], []] ∧
    (handle_round_over ⟨[[⟨'A', 's'⟩, ⟨'K', 'd'⟩]], [9/10], [[OppMove.raiseA], [], []], 3⟩).board_allocations
        = [[], [], []] ∧
    (handle_round_over ⟨[[⟨'A', 's'⟩, ⟨'K', 'd'⟩]], [9/10], [[OppMove.raiseA], [], []], 3⟩).hole_strengths
        = [0, 0, 0] ∧
    ([[OppMove.raiseA], [], []] : List (List OppMove)) ≠ [[], [], []] := by
  refine ⟨rfl, rfl, ?_, by decide⟩
  show ([(0 : ℚ), 0, 0] = [0, 0, 0])
  rfl

/-- C5 counterexample: on scenario A the claim's mechanism is wrong.  After the
connector pass the 2♣/2♦ are NOT leftover: the hole {2♦,2♣} has already been
committed by the connector pass (rank difference 0 qualifies), the remaining
set is empty, and the fallback pass adds no hole at all. -/
theorem scenarioA_deuces_taken_by_connector :
    [(⟨'2', 'd'⟩ : Card), ⟨'2', 'c'⟩] ∈ (connectorPass id (pairPass id scenarioA)).holes ∧
    (connectorPass id (pairPass id scenarioA)).rem = [] ∧
    (allocPasses id id id id scenarioA).holes
      = (flushPass id (connectorPass id (pairPass id scenarioA))).holes := by
  refine ⟨by decide, by decide, by decide⟩

/-- C5 (amended): on `[2♦,2♣,9♠,9♥,K♦,A♠]` the pair pass releases the 2-pair
(rank 2 below threshold 5) and commits {9♠,9♥}; the connector pass commits
{A♠,K♦} and then also {2♦,2♣} (adjacent with rank difference 0); nothing is
left for the flush or fallback passes.  The final holes are
{9♠,9♥}, {A♠,K♦}, {2♦,2♣} as the claim states. -/
theorem scenarioA_allocation :
    allocate_cards id id id id scenarioA =
      some [[⟨'9', 's'⟩, ⟨'9', 'h'⟩], [⟨'A', 's'⟩, ⟨'K', 'd'⟩], [⟨'2', 'd'⟩, ⟨'2', 'c'⟩]] ∧
    (pairPass id scenarioA).holes = [[⟨'9', 's'⟩, ⟨'9', 'h'⟩]] ∧
    (pairPass id scenarioA).rem = [⟨'2', 'd'⟩, ⟨'2', 'c'⟩, ⟨'K', 'd'⟩, ⟨'A', 's'⟩] ∧
    (connectorPass id (pairPass id scenarioA)).holes =
      [[⟨'9', 's'⟩, ⟨'9', 'h'⟩], [⟨'A', 's'⟩, ⟨'K', 'd'⟩], [⟨'2', 'd'⟩, ⟨'2', 'c'⟩]] := by
  refine ⟨by decide, by decide, by decide, by decide⟩

theorem commitChoice_cost_bound (legal : List ActKind) (target rc cc stack net : Int) :
    (commitChoice legal target rc cc stack net).2 = 0 ∨
    (commitChoice legal target rc cc stack net).2 ≤ stack - net := by
  unfold commitChoice
  split_ifs with h1 h2 h3
  · exact Or.inr h1.2
  · exact Or.inr h2.2
  · exact Or.inl rfl
  · exact Or.inl rfl

theorem boardStep_net_le (st : PlayerState) (street myStack net : Int) (i : Nat)
    (b : BoardInput) (rnd : ℚ) (h : net ≤ myStack) :
    (boardStep st street myStack net i b rnd).2.1 ≤ myStack := by
  unfold boardStep
  dsimp only
  rcases commitChoice_cost_bound b.legal (raiseAmountOf street b)
      (raiseAmountOf street b - b.myPip) (b.oppPip - b.myPip) myStack net with hc | hc <;>
    split_ifs <;> dsimp only <;> omega

/-- C2: throughout one call to `get_actions` on a non-negative stack, the
running `net_cost` accumulator never exceeds the stack read at the start of the
call: after processing each of the three boards in order, `net_cost ≤ my_stack`
(for every board input, player state and random draw; committed costs are
guarded by the affordability checks, so no extra sign assumption is needed). -/
theorem get_actions_net_cost_le_stack (st : PlayerState) (street myStack : Int)
    (b0 b1 b2 : BoardInput) (r0 r1 r2 : ℚ) (hstk : 0 ≤ myStack) :
    (boardStep st street myStack 0 0 b0 r0).2.1 ≤ myStack ∧
    (boardStep (boardStep st street myStack 0 0 b0 r0).2.2 street myStack
        (boardStep st street myStack 0 0 b0 r0).2.1 1 b1 r1).2.1 ≤ myStack ∧
    (get_actions st street myStack b0 b1 b2 r0 r1 r2).2.1 ≤ myStack := by
  have h0 := boardStep_net_le st street myStack 0 0 b0 r0 hstk
  have h1 := boardStep_net_le (boardStep st street myStack 0 0 b0 r0).2.2 street myStack
    (boardStep st street myStack 0 0 b0 r0).2.1 1 b1 r1 h0
  have h2 := boardStep_net_le (boardStep (boardStep st street myStack 0 0 b0 r0).2.2 street myStack
      (boardStep st street myStack 0 0 b0 r0).2.1 1 b1 r1).2.2 street myStack
    (boardStep (boardStep st street myStack 0 0 b0 r0).2.2 street myStack
      (boardStep st street myStack 0 0 b0 r0).2.1 1 b1 r1).2.1 2 b2 r2 h1
  exact ⟨h0, h1, h2⟩

/-- C6: for a board with `continue_cost > 0` whose adjusted, clamped strength
is strictly below `pot_odds = continue_cost / (pot_total + continue_cost)`, the
emitted action is a fold and the board adds zero to `net_cost`, for every
random draw `rnd` (the decision is deterministic). -/
theorem boardStep_folds_on_negative_ev (st : PlayerState) (street myStack net : Int)
    (i : Nat) (b : BoardInput) (rnd : ℚ)
    (hassign : b.legal.contains ActKind.assignK = false)
    (hterm : b.isTerminal = false)
    (hcont : 0 < b.oppPip - b.myPip)
    (hweak : adjustStrength (recordMove st i OppMove.raiseA).opponent_moves
        (b.oppPip - b.myPip) (st.hole_strengths.getD i 0) <
      ((b.oppPip - b.myPip : Int) : ℚ) /
        (((b.myPip + b.oppPip + b.pot : Int) : ℚ) + ((b.oppPip - b.myPip : Int) : ℚ))) :
    (boardStep st street myStack net i b rnd).1 = Action.fold ∧
    (boardStep st street myStack net i b rnd).2.1 = net := by
  unfold boardStep
  dsimp only
  rw [if_neg (fun hc => by rw [hassign] at hc; exact Bool.false_ne_true hc),
    if_neg (fun hc => by rw [hterm] at hc; exact Bool.false_ne_true hc),
    if_pos hcont, if_pos hcont, if_neg (not_le.mpr ?_)]
  · exact ⟨rfl, rfl⟩
  · push_cast at hweak ⊢
    exact hweak

theorem boardStep_folds_on_negative_ev_witness :
    (boardStep ⟨[[], [], []], [1/5, 0, 0], [[], [], []], 0⟩ 3 200 0 0
        ⟨[ActKind.raiseK, ActKind.callK, ActKind.foldK], false, 0, 10, 10, 20, 100⟩ 0).1
      = Action.fold ∧
    (boardStep ⟨[[], [], []], [1/5, 0, 0], [[], [], []], 0⟩ 3 200 0 0
        ⟨[ActKind.raiseK, ActKind.callK, ActKind.foldK], false, 0, 10, 10, 20, 100⟩ 0).2.1
      = 0 := by
  refine boardStep_folds_on_negative_ev _ 3 200 0 0 _ 0 rfl rfl (by norm_num) ?_
  have h0 : outerRaiseCount (recordMove ⟨[[], [], []], [1/5, 0, 0], [[], [], []], 0⟩ 0
      OppMove.raiseA).opponent_moves = 0 := rfl
  unfold adjustStrength
  rw [h0]
  norm_num [List.getD]

theorem getD_appendAt (moves : List (List OppMove)) (i j : Nat) (m : OppMove) :
    ∃ t, (appendAt moves i m).getD j [] = moves.getD j [] ++ t := by
  unfold appendAt
  by_cases hij : i = j
  · subst hij
    by_cases hlen : i < moves.length
    · exact ⟨[m], by rw [List.getD_eq_getElem?_getD, List.getElem?_set_self (by omega),
        List.getD_eq_getElem?_getD]; simp [List.getElem?_eq_getElem hlen]⟩
    · exact ⟨[], by rw [List.set_eq_of_length_le (by omega)]; simp⟩
  · exact ⟨[], by rw [List.getD_eq_getElem?_getD, List.getElem?_set_ne hij,
      ← List.getD_eq_getElem?_getD]; simp⟩

theorem boardStep_frame (st : PlayerState) (street myStack net : Int) (i : Nat)
    (b : BoardInput) (rnd : ℚ) :
    (boardStep st street myStack net i b rnd).2.2.board_allocations = st.board_allocations ∧
    (boardStep st street myStack net i b rnd).2.2.hole_strengths = st.hole_strengths ∧
    (boardStep st street myStack net i b rnd).2.2.last_seen_street = st.last_seen_street ∧
    ∀ j, ∃ t, (boardStep st street myStack net i b rnd).2.2.opponent_moves.getD j []
        = st.opponent_moves.getD j [] ++ t := by
  have hrec : ∀ m j, ∃ t, (recordMove st i m).opponent_moves.getD j []
      = st.opponent_moves.getD j [] ++ t := fun m j => getD_appendAt st.opponent_moves i j m
  unfold boardStep
  dsimp only
  split_ifs <;>
    first
      | exact ⟨rfl, rfl, rfl, hrec _⟩
      | exact ⟨rfl, rfl, rfl, fun j => ⟨[], (List.append_nil _).symm⟩⟩

/-- C10: `get_actions` never changes `board_allocations` or `hole_strengths`
(the intimidation adjustment acts on a local copy of the board's strength), and
the only state it mutates is the opponent-move history, to which entries are
only appended. -/
theorem get_actions_frame (st : PlayerState) (street myStack : Int)
    (b0 b1 b2 : BoardInput) (r0 r1 r2 : ℚ) :
    (get_actions st street myStack b0 b1 b2 r0 r1 r2).2.2.board_allocations
        = st.board_allocations ∧
    (get_actions st street myStack b0 b1 b2 r0 r1 r2).2.2.hole_strengths
        = st.hole_strengths ∧
    ∀ j, ∃ t, (get_actions st street myStack b0 b1 b2 r0 r1 r2).2.2.opponent_moves.getD j []
        = st.opponent_moves.getD j [] ++ t := by
  obtain ⟨ha0, hs0, -, hm0⟩ := boardStep_frame st street myStack 0 0 b0 r0
  set s0 := boardStep st street myStack 0 0 b0 r0 with hs0def
  obtain ⟨ha1, hs1, -, hm1⟩ := boardStep_frame s0.2.2 street myStack s0.2.1 1 b1 r1
  set s1 := boardStep s0.2.2 street myStack s0.2.1 1 b1 r1 with hs1def
  obtain ⟨ha2, hs2, -, hm2⟩ := boardStep_frame s1.2.2 street myStack s1.2.1 2 b2 r2
  set s2 := boardStep s1.2.2 street myStack s1.2.1 2 b2 r2 with hs2def
  refine ⟨?_, ?_, ?_⟩
  · show s2.2.2.board_allocations = st.board_allocations
    rw [ha2, ha1, ha0]
  · show s2.2.2.hole_strengths = st.hole_strengths
    rw [hs2, hs1, hs0]
  · intro j
    obtain ⟨t0, h0⟩ := hm0 j
    obtain ⟨t1, h1⟩ := hm1 j
    obtain ⟨t2, h2⟩ := hm2 j
    exact ⟨t0 ++ t1 ++ t2, by
      show s2.2.2.opponent_moves.getD j [] = _
      rw [h2, h1, h0]; simp [List.append_assoc]⟩

theorem buildHS_spec (tbl : String → Option ℚ) :
    ∀ (hc : List (List Card)) (hs : List (List Card × ℚ)), buildHS tbl hc = some hs →
      hs.map Prod.fst = hc ∧ ∀ x ∈ hs, tbl (hole_list_to_key x.1) = some x.2 := by
  intro hc
  induction hc with
  | nil =>
      intro hs h
      simp only [buildHS, Option.some.injEq] at h
      subst h
      exact ⟨rfl, fun x hx => absurd hx (List.not_mem_nil x)⟩
  | cons h rest ih =>
      intro hs hb
      simp only [buildHS] at hb
      cases htbl : tbl (hole_list_to_key h) with
      | none => rw [htbl] at hb; exact absurd hb (by simp)
      | some s =>
          rw [htbl] at hb
          cases hrest : buildHS tbl rest with
          | none => rw [hrest] at hb; exact absurd hb (by simp)
          | some acc =>
              rw [hrest] at hb
              simp only [Option.some.injEq] at hb
              subst hb
              obtain ⟨hmap, hall⟩ := ih acc hrest
              refine ⟨by simp [hmap], ?_⟩
              intro x hx
              rcases List.mem_cons.mp hx with hx | hx
              · subst hx; exact htbl
              · exact hall x hx

theorem swapTop_perm {α : Type} (l : List α) : (swapTop l).Perm l := by
  unfold swapTop
  split
  · exact List.Perm.cons _ (List.Perm.swap _ _ _)
  · exact List.Perm.refl _

theorem swapBottom_perm {α : Type} (l : List α) : (swapBottom l).Perm l := by
  unfold swapBottom
  split
  · exact List.Perm.swap _ _ _
  · exact List.Perm.refl _

theorem getD_map_range3 {α : Type} (l : List α) (d : α) (hlen : l.length = 3) :
    (List.range 3).map (fun i => l.getD i d) = l := by
  rcases l with _ | ⟨a, _ | ⟨b, _ | ⟨c, _ | ⟨e, t⟩⟩⟩⟩ <;> simp_all [List.range_succ]

/-- C7: whenever `assign_holes` succeeds on three holes whose keys are in the
strength table, the committed board assignment is a permutation of the three
input holes, and for every board index the recorded strength equals the table
strength of the hole assigned to that board — for every outcome of the two
random swaps (`r1`, `r2` arbitrary). -/
theorem assign_holes_spec (st : PlayerState) (tbl : String → Option ℚ)
    (hole_cards : List (List Card)) (r1 r2 : ℚ) (st' : PlayerState)
    (hlen : hole_cards.length = 3)
    (h : assign_holes st tbl hole_cards r1 r2 = some st') :
    st'.board_allocations.Perm hole_cards ∧
    st'.board_allocations.length = 3 ∧
    ∀ i < 3, tbl (hole_list_to_key (st'.board_allocations.getD i [])) =
      some (st'.hole_strengths.getD i 0) := by
  unfold assign_holes at h
  cases hb : buildHS tbl hole_cards with
  | none => rw [hb] at h; exact absurd h (by simp)
  | some hs0 =>
      rw [hb] at h
      simp only [Option.some.injEq] at h
      obtain ⟨hmap, hall⟩ := buildHS_spec tbl hole_cards hs0 hb
      set hs1 := List.insertionSort (fun a b : List Card × ℚ => a.2 ≤ b.2) hs0 with hdef1
      set hs2 := if r1 < 1/10 then swapTop hs1 else hs1 with hdef2
      set hs3 := if r2 < 1/10 then swapBottom hs2 else hs2 with hdef3
      have hperm1 : hs1.Perm hs0 := List.perm_insertionSort _ hs0
      have hperm2 : hs2.Perm hs1 := by
        rw [hdef2]; split
        · exact swapTop_perm hs1
        · exact List.Perm.refl _
      have hperm3 : hs3.Perm hs2 := by
        rw [hdef3]; split
        · exact swapBottom_perm hs2
        · exact List.Perm.refl _
      have hperm : hs3.Perm hs0 := (hperm3.trans hperm2).trans hperm1
      have hlen3 : hs3.length = 3 := by
        rw [hperm.length_eq]
        have hl0 := congrArg List.length hmap
        simpa using hl0.trans hlen
      obtain ⟨x, y, z, hxyz⟩ := List.length_eq_three.mp hlen3
      rw [hxyz] at h hperm
      have hall3 : ∀ w ∈ [x, y, z], tbl (hole_list_to_key w.1) = some w.2 := by
        intro w hw
        exact hall w (hperm.mem_iff.mp hw)
      have hba : st'.board_allocations = [x.1, y.1, z.1] := by rw [← h]; rfl
      have hstr : st'.hole_strengths = [x.2, y.2, z.2] := by rw [← h]; rfl
      refine ⟨?_, ?_, ?_⟩
      · rw [hba]
        have hp : ([x.1, y.1, z.1] : List (List Card)).Perm (List.map Prod.fst hs0) :=
          hperm.map Prod.fst
        rw [hmap] at hp
        exact hp
      · rw [hba]
        rfl
      · intro i hi
        rw [hba, hstr]
        interval_cases i
        · exact hall3 x (by simp)
        · exact hall3 y (by simp)
        · exact hall3 z (by simp)

theorem assign_holes_spec_witness :
    (PlayerState.mk
        [[⟨'A', 's'⟩, ⟨'A', 'd'⟩], [⟨'K', 's'⟩, ⟨'K', 'd'⟩], [⟨'Q', 's'⟩, ⟨'Q', 'd'⟩]]
        [1/2, 1/2, 1/2] [[], [], []] 0).board_allocations.Perm
      [[⟨'A', 's'⟩, ⟨'A', 'd'⟩], [⟨'K', 's'⟩, ⟨'K', 'd'⟩], [⟨'Q', 's'⟩, ⟨'Q', 'd'⟩]] ∧
    (PlayerState.mk
        [[⟨'A', 's'⟩, ⟨'A', 'd'⟩], [⟨'K', 's'⟩, ⟨'K', 'd'⟩], [⟨'Q', 's'⟩, ⟨'Q', 'd'⟩]]
        [1/2, 1/2, 1/2] [[], [], []] 0).board_allocations.length = 3 ∧
    ∀ i < 3, (fun _ : String => some (1/2 : ℚ))
        (hole_list_to_key ((PlayerState.mk
          [[⟨'A', 's'⟩, ⟨'A', 'd'⟩], [⟨'K', 's'⟩, ⟨'K', 'd'⟩], [⟨'Q', 's'⟩, ⟨'Q', 'd'⟩]]
          [1/2, 1/2, 1/2] [[], [], []] 0).board_allocations.getD i [])) =
      some ((PlayerState.mk
          [[⟨'A', 's'⟩, ⟨'A', 'd'⟩], [⟨'K', 's'⟩, ⟨'K', 'd'⟩], [⟨'Q', 's'⟩, ⟨'Q', 'd'⟩]]
          [1/2, 1/2, 1/2] [[], [], []] 0).hole_strengths.getD i 0) :=
  assign_holes_spec ⟨[[], [], []], [0, 0, 0], [[], [], []], 0⟩ (fun _ => some (1/2))
    [[⟨'A', 's'⟩, ⟨'A', 'd'⟩], [⟨'K', 's'⟩, ⟨'K', 'd'⟩], [⟨'Q', 's'⟩, ⟨'Q', 'd'⟩]] 1 1
    (PlayerState.mk
      [[⟨'A', 's'⟩, ⟨'A', 'd'⟩], [⟨'K', 's'⟩, ⟨'K', 'd'⟩], [⟨'Q', 's'⟩, ⟨'Q', 'd'⟩]]
      [1/2, 1/2, 1/2] [[], [], []] 0)
    rfl (by norm_num [assign_holes, buildHS, NUM_BOARDS, List.insertionSort, List.orderedInsert]; exact ⟨rfl, rfl⟩)

theorem get_actions_net_cost_le_stack_witness :
    (boardStep ⟨[[], [], []], [0, 0, 0], [[], [], []], 0⟩ 0 100 0 0
        ⟨[ActKind.assignK], false, 0, 0, 0, 0, 0⟩ 0).2.1 ≤ 100 ∧
    (boardStep (boardStep ⟨[[], [], []], [0, 0, 0], [[], [], []], 0⟩ 0 100 0 0
        ⟨[ActKind.assignK], false, 0, 0, 0, 0, 0⟩ 0).2.2 0 100
        (boardStep ⟨[[], [], []], [0, 0, 0], [[], [], []], 0⟩ 0 100 0 0
          ⟨[ActKind.assignK], false, 0, 0, 0, 0, 0⟩ 0).2.1 1
        ⟨[ActKind.assignK], false, 0, 0, 0, 0, 0⟩ 0).2.1 ≤ 100 ∧
    (get_actions ⟨[[], [], []], [0, 0, 0], [[], [], []], 0⟩ 0 100
        ⟨[ActKind.assignK], false, 0, 0, 0, 0, 0⟩ ⟨[ActKind.assignK], false, 0, 0, 0, 0, 0⟩
        ⟨[ActKind.assignK], false, 0, 0, 0, 0, 0⟩ 0 0 0).2.1 ≤ 100 :=
  get_actions_net_cost_le_stack ⟨[[], [], []], [0, 0, 0], [[], [], []], 0⟩ 0 100
    ⟨[ActKind.assignK], false, 0, 0, 0, 0, 0⟩ ⟨[ActKind.assignK], false, 0, 0, 0, 0, 0⟩
    ⟨[ActKind.assignK], false, 0, 0, 0, 0, 0⟩ 0 0 0 (by norm_num)

/-! ## Card-allocation partition proof (C1) -/

theorem mem_listDiff (l alloc : List Card) (c : Card) :
    c ∈ listDiff l alloc ↔ c ∈ l ∧ c ∉ alloc := by
  unfold listDiff
  simp [List.mem_filter]

theorem listDiff_nodup (l alloc : List Card) (h : l.Nodup) : (listDiff l alloc).Nodup :=
  List.Nodup.filter _ h

theorem listDiff_listDiff (l A B : List Card) (hAB : ∀ c ∈ A, c ∈ B) :
    listDiff (listDiff l A) B = listDiff l B := by
  unfold listDiff
  rw [List.filter_filter]
  apply List.filter_congr
  intro c _
  simp
  exact fun hnB hA2 => hnB (hAB c hA2)

theorem insertKey_nodup (seen : List Char) (k : Char) (h : seen.Nodup) :
    (insertKey seen k).Nodup := by
  unfold insertKey
  split
  · exact h
  · next hc =>
      rw [List.nodup_append]
      exact ⟨h, List.nodup_singleton k,
        fun a ha hb => hc (by simpa using (List.mem_singleton.mp (by simpa using hb)) ▸ ha)⟩

theorem keyOrder_nodup (key : Card → Char) (cards : List Card) :
    (keyOrder key cards).Nodup := by
  unfold keyOrder
  suffices h : ∀ seen : List Char, seen.Nodup →
      (cards.foldl (fun seen c => insertKey seen (key c)) seen).Nodup by
    exact h [] (List.nodup_nil)
  induction cards with
  | nil => intro seen hs; exact hs
  | cons c rest ih => intro seen hs; exact ih _ (insertKey_nodup seen (key c) hs)

theorem mem_flatten_groupsBy (key : Card → Char) (cards : List Card) (c : Card)
    (h : c ∈ (groupsBy key cards).flatten) : c ∈ cards := by
  rw [List.mem_flatten] at h
  obtain ⟨g, hg, hc⟩ := h
  unfold groupsBy at hg
  rw [List.mem_map] at hg
  obtain ⟨k, -, rfl⟩ := hg
  exact (List.mem_filter.mp hc).1

theorem flatten_groupsBy_nodup (key : Card → Char) (cards : List Card)
    (h : cards.Nodup) : ((groupsBy key cards).flatten).Nodup := by
  rw [List.nodup_flatten]
  constructor
  · intro g hg
    unfold groupsBy at hg
    rw [List.mem_map] at hg
    obtain ⟨k, -, rfl⟩ := hg
    exact h.filter _
  · unfold groupsBy
    rw [List.pairwise_map]
    have hko := keyOrder_nodup key cards
    apply List.Pairwise.imp_of_mem ?_ hko
    intro k1 k2 _ _ hne c hc1 hc2
    have e1 := (List.mem_filter.mp hc1).2
    have e2 := (List.mem_filter.mp hc2).2
    exact hne ((beq_iff_eq.mp e1).symm.trans (beq_iff_eq.mp e2))

theorem flatten_sublist_of_sublist {α : Type} {L1 L2 : List (List α)} (h : List.Sublist L1 L2) :
    List.Sublist L1.flatten L2.flatten := by
  induction h with
  | slnil => exact List.Sublist.refl _
  | cons g _ ih =>
      rw [List.flatten_cons]
      exact ih.trans (List.sublist_append_right g _)
  | cons₂ g _ ih =>
      rw [List.flatten_cons, List.flatten_cons]
      exact List.Sublist.append (List.Sublist.refl g) ih

theorem flatten_map_sublist {α : Type} (f : List α → List α) (L : List (List α))
    (hf : ∀ g ∈ L, List.Sublist (f g) g) : List.Sublist (L.map f).flatten L.flatten := by
  induction L with
  | nil => exact List.Sublist.refl _
  | cons g gs ih =>
      simp only [List.map_cons, List.flatten_cons]
      exact List.Sublist.append (hf g (by simp)) (ih (fun g hg => hf g (by simp [hg])))

theorem pairContrib_sublist (g : List Card) : List.Sublist (pairContrib g) g := by
  unfold pairContrib
  split
  · exact List.nil_sublist _
  · exact List.Sublist.refl _
  · exact List.Sublist.refl _
  · exact List.Sublist.cons₂ _ (List.Sublist.cons₂ _ (List.nil_sublist _))
  · exact List.Sublist.refl _

theorem chunk2_flatten_sublist {α : Type} :
    ∀ l : List α, List.Sublist (((chunk2 l).map (fun p => [p.1, p.2])).flatten) l
  | [] => by simp [chunk2]
  | [a] => by simp [chunk2]
  | a :: b :: rest => by
      simp only [chunk2, List.map_cons, List.flatten_cons]
      exact List.Sublist.cons₂ a (List.Sublist.cons₂ b (chunk2_flatten_sublist rest))

theorem chunk2_flatten_of_even {α : Type} :
    ∀ l : List α, l.length % 2 = 0 →
      (((chunk2 l).map (fun p => [p.1, p.2])).flatten) = l
  | [], _ => rfl
  | [a], h => by simp at h
  | a :: b :: rest, h => by
      simp only [chunk2, List.map_cons, List.flatten_cons]
      have hr : rest.length % 2 = 0 := by
        simp only [List.length_cons] at h
        omega
      rw [chunk2_flatten_of_even rest hr]
      simp

theorem flushContrib_shape (g : List Card) (h : List Card) (hh : h ∈ flushContrib g) :
    ∃ a b, h = [a, b] := by
  unfold flushContrib at hh
  split at hh
  all_goals simp_all
  all_goals tauto

theorem flushContrib_flatten_sublist (g : List Card) :
    List.Sublist ((flushContrib g).flatten) g := by
  unfold flushContrib
  split
  · simp
  · exact List.Sublist.cons₂ _ (List.Sublist.cons₂ _ (List.nil_sublist _))
  · simp
  · exact List.nil_sublist _

theorem allocInv_extend (cards : List Card) (s : AllocState) (N : List (List Card))
    (hInv : AllocInv cards s)
    (hshape : ∀ h ∈ N, ∃ a b, h = [a, b])
    (hflat : N.flatten.Nodup)
    (hrem : ∀ c ∈ N.flatten, c ∈ s.rem) :
    AllocInv cards
      ⟨s.holes ++ N, s.alloc ++ N.flatten, listDiff s.rem (s.alloc ++ N.flatten)⟩ := by
  obtain ⟨hsh, hnd, hiff, hremEq, hsub⟩ := hInv
  have hnew_cards : ∀ c ∈ N.flatten, c ∈ cards := by
    intro c hc
    have := hrem c hc
    rw [hremEq] at this
    exact ((mem_listDiff cards s.alloc c).mp this).1
  have hnew_not_old : ∀ c ∈ N.flatten, c ∉ s.holes.flatten := by
    intro c hc hold
    have h1 := hrem c hc
    rw [hremEq] at h1
    exact ((mem_listDiff cards s.alloc c).mp h1).2 ((hiff c).mpr hold)
  refine ⟨?_, ?_, ?_, ?_, ?_⟩
  · intro h hh
    rcases List.mem_append.mp hh with hh | hh
    · exact hsh h hh
    · exact hshape h hh
  · rw [List.flatten_append, List.nodup_append]
    exact ⟨hnd, hflat, fun a ha hb => hnew_not_old a hb ha⟩
  · intro c
    rw [List.flatten_append, List.mem_append, List.mem_append]
    constructor
    · intro h
      rcases h with h | h
      · exact Or.inl ((hiff c).mp h)
      · exact Or.inr h
    · intro h
      rcases h with h | h
      · exact Or.inl ((hiff c).mpr h)
      · exact Or.inr h
  · show listDiff s.rem (s.alloc ++ N.flatten) = listDiff cards (s.alloc ++ N.flatten)
    rw [hremEq]
    exact listDiff_listDiff cards s.alloc (s.alloc ++ N.flatten)
      (fun c hc => List.mem_append.mpr (Or.inl hc))
  · intro c hc
    rw [List.flatten_append] at hc
    rcases List.mem_append.mp hc with hc | hc
    · exact hsub c hc
    · exact hnew_cards c hc

theorem allocInv_pairPass (σ₀ : List Card → List Card) (cards : List Card)
    (hσ : ∀ l, (σ₀ l).Perm l) (hnd : cards.Nodup) :
    AllocInv cards (pairPass σ₀ cards) := by
  have hσnd : (σ₀ cards).Nodup := ((hσ cards).nodup_iff).mpr hnd
  have hGnd : ((groupsBy (fun c => c.rank) (σ₀ cards)).flatten).Nodup :=
    flatten_groupsBy_nodup _ _ hσnd
  have hpairs_sub : List.Sublist (pairsOf (σ₀ cards))
      ((groupsBy (fun c => c.rank) (σ₀ cards)).flatten) :=
    flatten_map_sublist pairContrib _ (fun g _ => pairContrib_sublist g)
  have hpairs_nd : (pairsOf (σ₀ cards)).Nodup := List.Nodup.sublist hpairs_sub hGnd
  have hpairs_cards : ∀ c ∈ pairsOf (σ₀ cards), c ∈ cards := by
    intro c hc
    exact ((hσ cards).mem_iff).mp
      (mem_flatten_groupsBy _ _ c (hpairs_sub.subset hc))
  unfold pairPass
  dsimp only
  set committed := (chunk2 (pairsOf (σ₀ cards))).filter
    (fun p => decide (MIN_PAIR_VALUE ≤ rank_to_numeric p.1.rank)) with hcdef
  have hflat_sub : List.Sublist ((committed.map (fun p => [p.1, p.2])).flatten)
      (pairsOf (σ₀ cards)) := by
    refine List.Sublist.trans ?_ (chunk2_flatten_sublist (pairsOf (σ₀ cards)))
    exact flatten_sublist_of_sublist (List.Sublist.map _ (List.filter_sublist _))
  refine ⟨?_, ?_, ?_, rfl, ?_⟩
  · intro h hh
    rw [List.mem_map] at hh
    obtain ⟨p, -, rfl⟩ := hh
    exact ⟨p.1, p.2, rfl⟩
  · exact List.Nodup.sublist hflat_sub hpairs_nd
  · intro c
    exact Iff.rfl
  · intro c hc
    exact hpairs_cards c (hflat_sub.subset hc)

theorem connectorLoop_spec (l : List Card) :
    ∀ (alloc : List Card) (holes : List (List Card)), l.Nodup →
      ∃ N, connectorLoop alloc holes l = (holes ++ N, alloc ++ N.flatten) ∧
        (∀ h ∈ N, ∃ a b, h = [a, b]) ∧ N.flatten.Nodup ∧
        (∀ c ∈ N.flatten, c ∈ l ∧ c ∉ alloc) := by
  induction l with
  | nil =>
      intro alloc holes _
      exact ⟨[], by simp [connectorLoop], by simp, by simp, by simp⟩
  | cons c1 tl ih =>
      intro alloc holes hnd
      cases tl with
      | nil =>
          exact ⟨[], by simp [connectorLoop], by simp, by simp, by simp⟩
      | cons c2 rest =>
          have hnd2 : (c2 :: rest).Nodup := hnd.of_cons
          by_cases hcond : ((rank_to_numeric c1.rank : Int) - rank_to_numeric c2.rank ≤ 1)
              ∧ c1 ∉ alloc ∧ c2 ∉ alloc
          · obtain ⟨N', heq, hsh, hndN, hmem⟩ :=
              ih (alloc ++ [c1, c2]) (holes ++ [[c1, c2]]) hnd2
            refine ⟨[c1, c2] :: N', ?_, ?_, ?_, ?_⟩
            · show connectorLoop alloc holes (c1 :: c2 :: rest) = _
              rw [connectorLoop, if_pos hcond, heq]
              simp [List.append_assoc]
            · intro h hh
              rcases List.mem_cons.mp hh with rfl | hh
              · exact ⟨c1, c2, rfl⟩
              · exact hsh h hh
            · show (c1 :: c2 :: N'.flatten).Nodup
              have hc1c2 : c1 ≠ c2 := by
                have := hnd
                rw [List.nodup_cons] at this
                exact fun he => this.1 (he ▸ List.mem_cons_self c2 rest)
              have hc1N : c1 ∉ N'.flatten := fun hc =>
                (hmem c1 hc).2 (List.mem_append.mpr (Or.inr (by simp)))
              have hc2N : c2 ∉ N'.flatten := fun hc =>
                (hmem c2 hc).2 (List.mem_append.mpr (Or.inr (by simp)))
              rw [List.nodup_cons, List.nodup_cons]
              exact ⟨by simp [hc1c2, hc1N], hc2N, hndN⟩
            · intro c hc
              rcases List.mem_cons.mp hc with rfl | hc
              · exact ⟨by simp, hcond.2.1⟩
              · rcases List.mem_cons.mp hc with rfl | hc
                · exact ⟨by simp, hcond.2.2⟩
                · have := hmem c hc
                  refine ⟨List.mem_cons.mpr (Or.inr this.1), ?_⟩
                  exact fun hca => this.2 (List.mem_append.mpr (Or.inl hca))
          · obtain ⟨N, heq, hsh, hndN, hmem⟩ := ih alloc holes hnd2
            refine ⟨N, ?_, hsh, hndN, ?_⟩
            · show connectorLoop alloc holes (c1 :: c2 :: rest) = _
              rw [connectorLoop, if_neg hcond, heq]
            · intro c hc
              have := hmem c hc
              exact ⟨List.mem_cons.mpr (Or.inr this.1), this.2⟩

theorem allocInv_connectorPass (σ₁ : List Card → List Card) (cards : List Card)
    (s : AllocState) (hσ : ∀ l, (σ₁ l).Perm l) (hnd : cards.Nodup)
    (hInv : AllocInv cards s) : AllocInv cards (connectorPass σ₁ s) := by
  have hremnd : s.rem.Nodup := by
    rw [hInv.2.2.2.1]
    exact listDiff_nodup cards s.alloc hnd
  have hsortperm : (sort_cards_by_rank (σ₁ s.rem)).Perm s.rem :=
    (List.perm_insertionSort _ _).trans (hσ s.rem)
  have hsortnd : (sort_cards_by_rank (σ₁ s.rem)).Nodup := hsortperm.nodup_iff.mpr hremnd
  obtain ⟨N, heq, hsh, hndN, hmem⟩ :=
    connectorLoop_spec (sort_cards_by_rank (σ₁ s.rem)) s.alloc s.holes hsortnd
  have hpass : connectorPass σ₁ s =
      ⟨s.holes ++ N, s.alloc ++ N.flatten, listDiff s.rem (s.alloc ++ N.flatten)⟩ := by
    unfold connectorPass
    dsimp only
    rw [heq]
  rw [hpass]
  exact allocInv_extend cards s N hInv hsh hndN
    (fun c hc => hsortperm.mem_iff.mp (hmem c hc).1)

theorem flushNew_sublist (G : List (List Card)) :
    List.Sublist (((G.map flushContrib).flatten).flatten) G.flatten := by
  induction G with
  | nil => simp
  | cons g gs ih =>
      simp only [List.map_cons, List.flatten_cons, List.flatten_append]
      exact List.Sublist.append (flushContrib_flatten_sublist g) ih

theorem allocInv_flushPass (σ₂ : List Card → List Card) (cards : List Card)
    (s : AllocState) (hσ : ∀ l, (σ₂ l).Perm l) (hnd : cards.Nodup)
    (hInv : AllocInv cards s) : AllocInv cards (flushPass σ₂ s) := by
  have hremnd : s.rem.Nodup := by
    rw [hInv.2.2.2.1]
    exact listDiff_nodup cards s.alloc hnd
  have hσnd : (σ₂ s.rem).Nodup := (hσ s.rem).nodup_iff.mpr hremnd
  have hGnd : ((groupsBy (fun c => c.suit) (σ₂ s.rem)).flatten).Nodup :=
    flatten_groupsBy_nodup _ _ hσnd
  have hsub := flushNew_sublist (groupsBy (fun c => c.suit) (σ₂ s.rem))
  unfold flushPass
  dsimp only
  apply allocInv_extend cards s _ hInv
  · intro h hh
    rw [List.mem_flatten] at hh
    obtain ⟨gs, hgs, hh⟩ := hh
    rw [List.mem_map] at hgs
    obtain ⟨g, -, rfl⟩ := hgs
    exact flushContrib_shape g h hh
  · exact List.Nodup.sublist hsub hGnd
  · intro c hc
    exact (hσ s.rem).mem_iff.mp
      (mem_flatten_groupsBy _ _ c (hsub.subset hc))

theorem flatten_length_of_shapes (H : List (List Card))
    (h : ∀ x ∈ H, ∃ a b, x = [a, b]) : H.flatten.length = 2 * H.length := by
  induction H with
  | nil => rfl
  | cons x t ih =>
      obtain ⟨a, b, rfl⟩ := h x (List.mem_cons_self x t)
      have ht := ih (fun y hy => h y (List.mem_cons.mpr (Or.inr hy)))
      simp only [List.flatten_cons, List.length_append, List.length_cons, List.length_nil, ht]
      omega

theorem allocInv_perm (cards : List Card) (s : AllocState)
    (hInv : AllocInv cards s) (hnd : cards.Nodup) :
    (s.holes.flatten ++ s.rem).Perm cards := by
  obtain ⟨hsh, hndf, hiff, hremEq, hsub⟩ := hInv
  have hremnd : s.rem.Nodup := by
    rw [hremEq]
    exact listDiff_nodup cards s.alloc hnd
  have hndapp : (s.holes.flatten ++ s.rem).Nodup := by
    rw [List.nodup_append]
    refine ⟨hndf, hremnd, ?_⟩
    intro a ha hb
    rw [hremEq] at hb
    exact ((mem_listDiff _ _ _).mp hb).2 ((hiff a).mpr ha)
  rw [List.perm_ext_iff_of_nodup hndapp hnd]
  intro a
  rw [List.mem_append, hremEq, mem_listDiff]
  constructor
  · rintro (h | h)
    · exact hsub a h
    · exact h.1
  · intro hc
    by_cases ha : a ∈ s.alloc
    · exact Or.inl ((hiff a).mp ha)
    · exact Or.inr ⟨hc, ha⟩

/-- C1: for every input list of 6 distinct cards and every iteration order of
the intermediate rank/suit groupings and set enumerations (every choice of
permutation-oracles σ₀-σ₃), `allocate_cards` passes its assertions and returns
exactly three holes of two cards each whose concatenation is a permutation of
the input — so the holes are pairwise card-disjoint and their union is exactly
the input set, every dealt card appearing in exactly one hole. -/
theorem allocate_cards_partitions (cards : List Card) (σ₀ σ₁ σ₂ σ₃ : List Card → List Card)
    (h0 : ∀ l, (σ₀ l).Perm l) (h1 : ∀ l, (σ₁ l).Perm l)
    (h2 : ∀ l, (σ₂ l).Perm l) (h3 : ∀ l, (σ₃ l).Perm l)
    (hlen : cards.length = 6) (hnd : cards.Nodup) :
    allocate_cards σ₀ σ₁ σ₂ σ₃ cards = some (allocPasses σ₀ σ₁ σ₂ σ₃ cards).holes ∧
    (allocPasses σ₀ σ₁ σ₂ σ₃ cards).holes.length = 3 ∧
    (∀ h ∈ (allocPasses σ₀ σ₁ σ₂ σ₃ cards).holes, h.length = 2) ∧
    (allocPasses σ₀ σ₁ σ₂ σ₃ cards).holes.flatten.Perm cards ∧
    (allocPasses σ₀ σ₁ σ₂ σ₃ cards).holes.Pairwise List.Disjoint := by
  set S2 := flushPass σ₂ (connectorPass σ₁ (pairPass σ₀ cards)) with hS2
  have hInv2 : AllocInv cards S2 :=
    allocInv_flushPass σ₂ cards _ h2 hnd
      (allocInv_connectorPass σ₁ cards _ h1 hnd (allocInv_pairPass σ₀ cards h0 hnd))
  have hremnd2 : S2.rem.Nodup := by
    rw [hInv2.2.2.2.1]
    exact listDiff_nodup cards S2.alloc hnd
  have hperm2 := allocInv_perm cards S2 hInv2 hnd
  have hflat2 : S2.holes.flatten.length = 2 * S2.holes.length :=
    flatten_length_of_shapes _ hInv2.1
  have hremlen : S2.rem.length % 2 = 0 := by
    have hl := hperm2.length_eq
    rw [List.length_append, hlen, hflat2] at hl
    omega
  have hextlen : (σ₃ S2.rem).length % 2 = 0 := by
    rw [(h3 S2.rem).length_eq]
    exact hremlen
  set N := (chunk2 (σ₃ S2.rem)).map (fun p : Card × Card => [p.1, p.2]) with hN
  have hNflat : N.flatten = σ₃ S2.rem := chunk2_flatten_of_even _ hextlen
  have hshapeN : ∀ h ∈ N, ∃ a b, h = [a, b] := by
    intro h hh
    rw [hN, List.mem_map] at hh
    obtain ⟨p, -, rfl⟩ := hh
    exact ⟨p.1, p.2, rfl⟩
  have hndN : N.flatten.Nodup := by
    rw [hNflat]
    exact (h3 S2.rem).nodup_iff.mpr hremnd2
  have hmemN : ∀ c ∈ N.flatten, c ∈ S2.rem := by
    intro c hc
    rw [hNflat] at hc
    exact (h3 S2.rem).mem_iff.mp hc
  have hS3eq : fallbackPass σ₃ S2 =
      ⟨S2.holes ++ N, S2.alloc ++ N.flatten, listDiff S2.rem (S2.alloc ++ N.flatten)⟩ := by
    unfold fallbackPass
    dsimp only
  have hInv3 : AllocInv cards (fallbackPass σ₃ S2) := by
    rw [hS3eq]
    exact allocInv_extend cards S2 N hInv2 hshapeN hndN hmemN
  have hrem3 : (fallbackPass σ₃ S2).rem = [] := by
    rw [hS3eq]
    show listDiff S2.rem (S2.alloc ++ N.flatten) = []
    apply List.eq_nil_iff_forall_not_mem.mpr
    intro c hc
    rw [mem_listDiff] at hc
    refine hc.2 (List.mem_append.mpr (Or.inr ?_))
    rw [hNflat]
    exact (h3 S2.rem).mem_iff.mpr hc.1
  have hAP : allocPasses σ₀ σ₁ σ₂ σ₃ cards = fallbackPass σ₃ S2 := rfl
  have hperm3 : (fallbackPass σ₃ S2).holes.flatten.Perm cards := by
    have hp := allocInv_perm cards _ hInv3 hnd
    rw [hrem3, List.append_nil] at hp
    exact hp
  have hlen3 : (fallbackPass σ₃ S2).holes.length = 3 := by
    have hfl := hperm3.length_eq
    rw [hlen, flatten_length_of_shapes _ hInv3.1] at hfl
    omega
  refine ⟨?_, ?_, ?_, ?_, ?_⟩
  · unfold allocate_cards
    dsimp only
    rw [hAP, if_pos ⟨hlen3, hrem3⟩]
  · rw [hAP]
    exact hlen3
  · rw [hAP]
    intro h hh
    obtain ⟨a, b, rfl⟩ := hInv3.1 h hh
    rfl
  · rw [hAP]
    exact hperm3
  · rw [hAP]
    exact (List.nodup_flatten.mp hInv3.2.1).2

theorem allocate_cards_partitions_witness :
    allocate_cards id id id id scenarioA = some (allocPasses id id id id scenarioA).holes ∧
    (allocPasses id id id id scenarioA).holes.length = 3 ∧
    (∀ h ∈ (allocPasses id id id id scenarioA).holes, h.length = 2) ∧
    (allocPasses id id id id scenarioA).holes.flatten.Perm scenarioA ∧
    (allocPasses id id id id scenarioA).holes.Pairwise List.Disjoint :=
  allocate_cards_partitions scenarioA id id id id
    (fun l => List.Perm.refl l) (fun l => List.Perm.refl l)
    (fun l => List.Perm.refl l) (fun l => List.Perm.refl l)
    rfl (by decide)

end Poker
